import Mathlib

/-!
# Verification of the DSAlign wav-splitting core (`align/wavSplit.py`)

Shallow embedding of the frame generator and the VAD segment collector.

Modelling conventions:
- PCM byte strings are `List ℕ` (one entry per byte).
- Python floats (durations, timestamps, thresholds, millisecond offsets) are
  embedded as exact rationals `ℚ`; `int(x)` on a nonnegative value is `⌊x⌋.toNat`.
- The `collections.deque(maxlen = cap)` ring buffer is a `List` together with a
  push operation that drops the oldest entries beyond the capacity.
- The lazy generators are embedded as functions returning the full finite list
  of produced values; the classifier (`webrtcvad.Vad.is_speech`) is an abstract
  function `List ℕ → ℕ → Bool`, and the collector additionally records the
  trace of arguments it passes to the classifier, one record per call.
-/

/-- A frame of audio data (`Frame` in the source): raw bytes, a timestamp in
seconds and a duration in seconds. -/
structure Frame where
  bytes : List ℕ
  timestamp : ℚ
  duration : ℚ
deriving DecidableEq, Repr

/-- One emitted segment: the tuple
`(b''.join(frame bytes), start_ms, end_ms)` yielded by `vad_collector`. -/
structure Segment where
  audio_bytes : List ℕ
  start_ms : ℚ
  end_ms : ℚ
deriving DecidableEq, Repr

/-- The frame byte length `n = int(sample_rate * (frame_duration_ms / 1000.0) * 2)`
computed by `frame_generator`. -/
def frameByteLen (frame_duration_ms : ℚ) (sample_rate : ℕ) : ℕ :=
  (⌊(sample_rate : ℚ) * (frame_duration_ms / 1000) * 2⌋).toNat

/-- The `while offset + n < len(audio)` loop of `frame_generator`.

The source loop never terminates when `n = 0` (the offset does not advance),
so the guard here additionally requires `0 < n`; under `0 < n` every yield
advances `offset` by at least one, hence a structural fuel of `audio.length`
steps is enough to run the loop to completion (`frame_generator` below passes
exactly that). -/
def frameGenGo (n : ℕ) (audio : List ℕ) : ℕ → ℕ → ℚ → ℚ → List Frame
  | 0, _, _, _ => []
  | fuel + 1, offset, timestamp, duration =>
    if 0 < n ∧ offset + n < audio.length then
      { bytes := (audio.drop offset).take n,
        timestamp := timestamp, duration := duration } ::
        frameGenGo n audio fuel (offset + n) (timestamp + duration) duration
    else []

/-- `frame_generator(frame_duration_ms, audio, sample_rate)`: slices the PCM
byte string into consecutive frames of `n` bytes, starting at offset `0` and
timestamp `0.0`, with per-frame duration `(float(n) / sample_rate) / 2.0`. -/
def frame_generator (frame_duration_ms : ℚ) (audio : List ℕ) (sample_rate : ℕ) :
    List Frame :=
  frameGenGo (frameByteLen frame_duration_ms sample_rate) audio audio.length 0 0
    (((frameByteLen frame_duration_ms sample_rate : ℚ) / (sample_rate : ℚ)) / 2)

/-- `deque.append` with `maxlen = cap`: append `x` and evict the oldest
entries so that at most `cap` remain. -/
def dequePush {α : Type} (cap : ℕ) (buf : List α) (x : α) : List α :=
  let b := buf ++ [x]
  b.drop (b.length - cap)

/-- The mutable state of the `vad_collector` loop: the `triggered` flag, the
ring buffer of `(frame, is_speech)` pairs, and the `voiced_frames`
accumulator. -/
structure VCState where
  triggered : Bool
  ring : List (Frame × Bool)
  voiced : List Frame
deriving DecidableEq, Repr

/-- One iteration of the `for frame_index, frame in enumerate(frames)` body of
`vad_collector`, given the classifier verdict `speech` for the current frame:
returns the successor state and the (at most one) segment yielded during this
iteration. -/
def vcStep (threshold : ℚ) (cap : ℕ) (frame_duration_ms : ℚ) (frame_index : ℕ)
    (st : VCState) (frame : Frame) (speech : Bool) : VCState × Option Segment :=
  if st.triggered then
    let voiced := st.voiced ++ [frame]
    let ring := dequePush cap st.ring (frame, speech)
    let num_unvoiced := (ring.filter (fun p => !p.2)).length
    if (num_unvoiced : ℚ) > threshold * (cap : ℚ) then
      (⟨false, [], []⟩,
        some { audio_bytes := (voiced.map Frame.bytes).flatten,
               start_ms := frame_duration_ms *
                 ((max 0 ((frame_index : ℤ) - (voiced.length : ℤ)) : ℤ) : ℚ),
               end_ms := frame_duration_ms * (frame_index : ℚ) })
    else
      (⟨true, ring, voiced⟩, none)
  else
    let ring := dequePush cap st.ring (frame, speech)
    let num_voiced := (ring.filter (fun p => p.2)).length
    if (num_voiced : ℚ) > threshold * (cap : ℚ) then
      (⟨true, [], st.voiced ++ ring.map Prod.fst⟩, none)
    else
      (⟨false, ring, st.voiced⟩, none)

/-- The ring buffer capacity
`num_padding_frames = int(padding_duration_ms / frame_duration_ms)`. -/
def ringCap (frame_duration_ms padding_duration_ms : ℚ) : ℕ :=
  (⌊padding_duration_ms / frame_duration_ms⌋).toNat

/-- The main loop of `vad_collector` over the remaining frames, carrying the
current frame index, the state, the segments yielded so far, and the trace of
`vad.is_speech(frame.bytes, sample_rate)` calls made so far. -/
def vcLoop (sample_rate : ℕ) (vad : List ℕ → ℕ → Bool) (threshold : ℚ)
    (cap : ℕ) (frame_duration_ms : ℚ) :
    List Frame → ℕ → VCState → List Segment → List (List ℕ × ℕ) →
      VCState × List Segment × List (List ℕ × ℕ)
  | [], _, st, segs, calls => (st, segs, calls)
  | frame :: rest, frame_index, st, segs, calls =>
    let speech := vad frame.bytes sample_rate
    let r := vcStep threshold cap frame_duration_ms frame_index st frame speech
    vcLoop sample_rate vad threshold cap frame_duration_ms rest (frame_index + 1)
      r.1 (segs ++ r.2.toList) (calls ++ [(frame.bytes, sample_rate)])

/-- `vad_collector(sample_rate, frame_duration_ms, padding_duration_ms,
threshold, vad, frames)`: runs the loop from the initial state
(`triggered = False`, empty ring buffer, empty `voiced_frames`) and finally, if
`voiced_frames` is non-empty, yields one last segment from the leftover voiced
frames, whose offsets use the final value `frames.length - 1` of the loop
variable `frame_index`. -/
def vad_collector (sample_rate : ℕ)
    (frame_duration_ms padding_duration_ms threshold : ℚ)
    (vad : List ℕ → ℕ → Bool) (frames : List Frame) : List Segment :=
  let cap := ringCap frame_duration_ms padding_duration_ms
  let r := vcLoop sample_rate vad threshold cap frame_duration_ms frames 0
    ⟨false, [], []⟩ [] []
  let st := r.1
  let segs := r.2.1
  if st.voiced.isEmpty then segs
  else
    segs ++ [{ audio_bytes := (st.voiced.map Frame.bytes).flatten,
               start_ms := frame_duration_ms *
                 (((((frames.length : ℤ) - 1) - (st.voiced.length : ℤ)) : ℤ) : ℚ),
               end_ms := frame_duration_ms *
                 (((((frames.length : ℤ) - 1) + 1) : ℤ) : ℚ) }]

/-- The trace of arguments passed to `vad.is_speech` by a run of
`vad_collector`, in call order. -/
def vad_collector_calls (sample_rate : ℕ)
    (frame_duration_ms padding_duration_ms threshold : ℚ)
    (vad : List ℕ → ℕ → Bool) (frames : List Frame) : List (List ℕ × ℕ) :=
  (vcLoop sample_rate vad threshold (ringCap frame_duration_ms padding_duration_ms)
    frame_duration_ms frames 0 ⟨false, [], []⟩ [] []).2.2

/-- Inductive invariant of the `vad_collector` loop after `i` processed frames,
relating the state and the segments emitted so far: `voiced_frames` is empty
exactly outside the TRIGGERED state; emitted segments have positive extent and
are chained in time; and (via the frame index `e` at which the last segment was
emitted) the accumulators are short enough that the next emitted segment cannot
start before the last one ended. -/
structure VCInv (fdms : ℚ) (i : ℕ) (st : VCState) (segs : List Segment) : Prop where
  not_trig : st.triggered = false → st.voiced = []
  trig_ne : st.triggered = true → st.voiced ≠ []
  chain : List.Chain' (fun a b => a.end_ms ≤ b.start_ms) segs
  pos : ∀ s ∈ segs, s.start_ms < s.end_ms
  link0 : segs = [] → (st.triggered = true → st.voiced.length ≤ i) ∧
      (st.triggered = false → st.ring.length ≤ i)
  link1 : ∀ s, segs.getLast? = some s → ∃ e : ℕ, s.end_ms = fdms * (e : ℚ) ∧
      e + 1 ≤ i ∧ (st.triggered = true → st.voiced.length + e + 1 ≤ i) ∧
      (st.triggered = false → st.ring.length + e + 1 ≤ i)

/-! ## Properties of the frame generator -/

/-- When the frame byte length is zero the source loop would never terminate;
the embedding emits no frame in that case. -/
lemma frameGenGo_zero (audio : List ℕ) :
    ∀ fuel offset t d, frameGenGo 0 audio fuel offset t d = [] := by
  intro fuel offset t d
  cases fuel with
  | zero => rfl
  | succ fuel => simp [frameGenGo]

/-- Master characterization of the frame generator loop: provided the fuel is
large enough to run the loop to completion, the element at index `k` is the
slice of `n` bytes at offset `offset + k * n`, with timestamp `t + k * d`,
and it exists exactly when that slice ends strictly before the end of the
input. -/
lemma frameGenGo_get? (n : ℕ) (audio : List ℕ) (hn : 0 < n) :
    ∀ fuel offset t d, audio.length ≤ offset + fuel * n →
      ∀ k : ℕ, (frameGenGo n audio fuel offset t d).get? k =
        if offset + k * n + n < audio.length then
          some ⟨(audio.drop (offset + k * n)).take n, t + (k : ℚ) * d, d⟩
        else none := by
  intro fuel
  induction fuel with
  | zero =>
    intro offset t d hfuel k
    rw [if_neg (by omega)]
    rfl
  | succ fuel ih =>
    intro offset t d hfuel k
    rw [frameGenGo]
    by_cases hg : offset + n < audio.length
    · rw [if_pos ⟨hn, hg⟩]
      cases k with
      | zero =>
        rw [if_pos (by omega)]
        simp
      | succ k =>
        have harith : offset + n + k * n = offset + (k + 1) * n := by ring
        have hrec := ih (offset + n) (t + d) d (by rw [Nat.succ_mul] at hfuel; omega) k
        rw [harith] at hrec
        simp only [List.get?_cons_succ, hrec]
        by_cases hc : offset + (k + 1) * n + n < audio.length
        · rw [if_pos hc, if_pos hc, Option.some_inj, Frame.mk.injEq]
          refine ⟨rfl, ?_, rfl⟩
          push_cast
          ring
        · rw [if_neg hc, if_neg hc]
    · rw [if_neg (fun hcon => hg hcon.2), if_neg (by omega)]
      rfl

/-- The concatenation of the bytes of the frames produced from offset `offset`
is a prefix of the input with its first `offset` bytes removed. -/
lemma frameGenGo_flatten_prefix (n : ℕ) (audio : List ℕ) :
    ∀ fuel offset t d,
      ((frameGenGo n audio fuel offset t d).map Frame.bytes).flatten <+:
        audio.drop offset := by
  intro fuel
  induction fuel with
  | zero =>
    intro offset t d
    exact List.nil_prefix
  | succ fuel ih =>
    intro offset t d
    rw [frameGenGo]
    by_cases hg : 0 < n ∧ offset + n < audio.length
    · rw [if_pos hg]
      obtain ⟨tail, htail⟩ := ih (offset + n) (t + d) d
      refine ⟨tail, ?_⟩
      have hdd : audio.drop (offset + n) = (audio.drop offset).drop n := by
        rw [List.drop_drop, Nat.add_comm]
      rw [hdd] at htail
      simp only [List.map_cons, List.flatten_cons, List.append_assoc, htail,
        List.take_append_drop]
    · rw [if_neg hg]
      exact List.nil_prefix

/-- C4: for frame byte length `n = frameByteLen`, `frame_generator` yields one
frame of bytes `audio[k * n : k * n + n]` for each index `k` with
`k * n + n < audio.length` and no others (a final full frame ending exactly at
the end of the input is dropped), and the concatenation of all emitted frame
bytes is a prefix of the input. -/
theorem C4_frame_tiling (frame_duration_ms : ℚ) (audio : List ℕ) (sample_rate : ℕ)
    (hn : 0 < frameByteLen frame_duration_ms sample_rate) :
    (∀ k : ℕ, k < (frame_generator frame_duration_ms audio sample_rate).length ↔
        k * frameByteLen frame_duration_ms sample_rate +
          frameByteLen frame_duration_ms sample_rate < audio.length) ∧
    (∀ (k : ℕ) (f : Frame),
        (frame_generator frame_duration_ms audio sample_rate).get? k = some f →
        f.bytes = (audio.drop (k * frameByteLen frame_duration_ms sample_rate)).take
          (frameByteLen frame_duration_ms sample_rate)) ∧
    ((frame_generator frame_duration_ms audio sample_rate).map Frame.bytes).flatten
      <+: audio := by
  have hfuel : audio.length ≤ 0 + audio.length * frameByteLen frame_duration_ms sample_rate := by
    have h1 : audio.length * 1 ≤ audio.length * frameByteLen frame_duration_ms sample_rate :=
      Nat.mul_le_mul_left _ hn
    rw [Nat.mul_one] at h1
    omega
  have hmaster := frameGenGo_get? (frameByteLen frame_duration_ms sample_rate) audio hn
    audio.length 0 0
    (((frameByteLen frame_duration_ms sample_rate : ℚ) / (sample_rate : ℚ)) / 2) hfuel
  unfold frame_generator
  refine ⟨?_, ?_, ?_⟩
  · intro k
    have hk := hmaster k
    rw [Nat.zero_add] at hk
    by_cases hc : k * frameByteLen frame_duration_ms sample_rate +
        frameByteLen frame_duration_ms sample_rate < audio.length
    · rw [if_pos hc] at hk
      obtain ⟨hlt, -⟩ := List.get?_eq_some.mp hk
      exact ⟨fun _ => hc, fun _ => hlt⟩
    · rw [if_neg hc] at hk
      have := List.get?_eq_none.mp hk
      exact ⟨fun h => absurd h (by omega), fun h => absurd h hc⟩
  · intro k f hf
    have hk := hmaster k
    rw [Nat.zero_add] at hk
    by_cases hc : k * frameByteLen frame_duration_ms sample_rate +
        frameByteLen frame_duration_ms sample_rate < audio.length
    · rw [if_pos hc] at hk
      rw [hk, Option.some_inj] at hf
      rw [← hf]
    · rw [if_neg hc] at hk
      rw [hk] at hf
      exact absurd hf (by simp)
  · have := frameGenGo_flatten_prefix (frameByteLen frame_duration_ms sample_rate)
      audio audio.length 0 0
      (((frameByteLen frame_duration_ms sample_rate : ℚ) / (sample_rate : ℚ)) / 2)
    rwa [List.drop_zero] at this

/-- Concrete instance of C4: frame byte length 2, seven input bytes, three
frames whose bytes tile a prefix of the input. -/
theorem C4_frame_tiling_witness :
    0 < frameByteLen 500 2 ∧
    ((frame_generator 500 [0, 1, 2, 3, 4, 5, 6] 2).map Frame.bytes).flatten
      <+: [0, 1, 2, 3, 4, 5, 6] :=
  ⟨by with_unfolding_all decide,
   (C4_frame_tiling 500 [0, 1, 2, 3, 4, 5, 6] 2 (by with_unfolding_all decide)).2.2⟩

/-- C5: every frame emitted by `frame_generator` has the same duration
`n / sample_rate / 2` (seconds, with `n = frameByteLen`), and the k-th emitted
frame has timestamp exactly `k * duration`, starting at 0. -/
theorem C5_frame_timestamps (frame_duration_ms : ℚ) (audio : List ℕ) (sample_rate : ℕ) :
    ∀ (k : ℕ) (f : Frame),
      (frame_generator frame_duration_ms audio sample_rate).get? k = some f →
      f.duration = (frameByteLen frame_duration_ms sample_rate : ℚ) / (sample_rate : ℚ) / 2 ∧
      f.timestamp = (k : ℚ) *
        ((frameByteLen frame_duration_ms sample_rate : ℚ) / (sample_rate : ℚ) / 2) := by
  intro k f hf
  by_cases hn : 0 < frameByteLen frame_duration_ms sample_rate
  · have hfuel : audio.length ≤ 0 + audio.length * frameByteLen frame_duration_ms sample_rate := by
      have h1 : audio.length * 1 ≤ audio.length * frameByteLen frame_duration_ms sample_rate :=
        Nat.mul_le_mul_left _ hn
      rw [Nat.mul_one] at h1
      omega
    have hk := frameGenGo_get? (frameByteLen frame_duration_ms sample_rate) audio hn
      audio.length 0 0
      (((frameByteLen frame_duration_ms sample_rate : ℚ) / (sample_rate : ℚ)) / 2) hfuel k
    unfold frame_generator at hf
    rw [hk] at hf
    by_cases hc : 0 + k * frameByteLen frame_duration_ms sample_rate +
        frameByteLen frame_duration_ms sample_rate < audio.length
    · rw [if_pos hc, Option.some_inj] at hf
      rw [← hf]
      exact ⟨rfl, by simp⟩
    · rw [if_neg hc] at hf
      exact absurd hf (by simp)
  · have hzero : frameByteLen frame_duration_ms sample_rate = 0 := by omega
    have : frame_generator frame_duration_ms audio sample_rate = [] := by
      unfold frame_generator
      rw [hzero]
      exact frameGenGo_zero audio audio.length 0 0 _
    rw [this] at hf
    exact absurd hf (by simp)

/-- Concrete instance of C5: the frame at index 1 has duration 1/2 s and
timestamp 1 * (1/2) s. -/
theorem C5_frame_timestamps_witness :
    (frame_generator 500 [0, 1, 2, 3, 4, 5, 6] 2).get? 1 = some ⟨[2, 3], 1/2, 1/2⟩ ∧
    ((⟨[2, 3], 1/2, 1/2⟩ : Frame).duration = (frameByteLen 500 2 : ℚ) / ((2 : ℕ) : ℚ) / 2 ∧
     (⟨[2, 3], 1/2, 1/2⟩ : Frame).timestamp =
       ((1 : ℕ) : ℚ) * ((frameByteLen 500 2 : ℚ) / ((2 : ℕ) : ℚ) / 2)) :=
  ⟨by with_unfolding_all decide,
   C5_frame_timestamps 500 [0, 1, 2, 3, 4, 5, 6] 2 1 ⟨[2, 3], 1/2, 1/2⟩
     (by with_unfolding_all decide)⟩

/-! ## Properties of one collector step -/

/-- Unfolding of `vcStep` in the TRIGGERED state. -/
lemma vcStep_triggered_eq (threshold : ℚ) (cap : ℕ) (fdms : ℚ) (idx : ℕ)
    (st : VCState) (frame : Frame) (speech : Bool) (htr : st.triggered = true) :
    vcStep threshold cap fdms idx st frame speech =
      if ((((dequePush cap st.ring (frame, speech)).filter (fun p => !p.2)).length : ℚ) >
          threshold * (cap : ℚ)) then
        (⟨false, [], []⟩,
          some { audio_bytes := ((st.voiced ++ [frame]).map Frame.bytes).flatten,
                 start_ms := fdms *
                   ((max 0 ((idx : ℤ) - (((st.voiced ++ [frame]).length : ℕ) : ℤ)) : ℤ) : ℚ),
                 end_ms := fdms * (idx : ℚ) })
      else
        (⟨true, dequePush cap st.ring (frame, speech), st.voiced ++ [frame]⟩, none) := by
  simp only [vcStep, htr, if_true]

/-- Unfolding of `vcStep` in the NOT_TRIGGERED state. -/
lemma vcStep_not_triggered_eq (threshold : ℚ) (cap : ℕ) (fdms : ℚ) (idx : ℕ)
    (st : VCState) (frame : Frame) (speech : Bool) (htr : st.triggered = false) :
    vcStep threshold cap fdms idx st frame speech =
      if ((((dequePush cap st.ring (frame, speech)).filter (fun p => p.2)).length : ℚ) >
          threshold * (cap : ℚ)) then
        (⟨true, [], st.voiced ++ (dequePush cap st.ring (frame, speech)).map Prod.fst⟩, none)
      else
        (⟨false, dequePush cap st.ring (frame, speech), st.voiced⟩, none) := by
  simp only [vcStep, htr, if_false, Bool.false_eq_true]

/-- C1: in the TRIGGERED state the incoming frame is appended to
`voiced_frames` and pushed into the ring buffer; if the number of unvoiced
entries of the ring buffer then exceeds `threshold * capacity`, the collector
detriggers and emits exactly one segment whose bytes are the in-order
concatenation of the voiced frame bytes, with
`start_ms = fdms * max 0 (frame_index - len voiced_frames)` and
`end_ms = fdms * frame_index`, after which both the ring buffer and
`voiced_frames` are empty; otherwise no segment is emitted and the state keeps
the grown accumulators. -/
theorem C1_triggered_step (threshold : ℚ) (cap : ℕ) (fdms : ℚ) (idx : ℕ)
    (st : VCState) (frame : Frame) (speech : Bool) (htr : st.triggered = true) :
    (((((dequePush cap st.ring (frame, speech)).filter (fun p => !p.2)).length : ℚ) >
        threshold * (cap : ℚ)) →
      vcStep threshold cap fdms idx st frame speech =
        (⟨false, [], []⟩,
         some { audio_bytes := ((st.voiced ++ [frame]).map Frame.bytes).flatten,
                start_ms := fdms *
                  ((max 0 ((idx : ℤ) - (((st.voiced ++ [frame]).length : ℕ) : ℤ)) : ℤ) : ℚ),
                end_ms := fdms * (idx : ℚ) })) ∧
    ((¬ ((((dequePush cap st.ring (frame, speech)).filter (fun p => !p.2)).length : ℚ) >
        threshold * (cap : ℚ))) →
      vcStep threshold cap fdms idx st frame speech =
        (⟨true, dequePush cap st.ring (frame, speech), st.voiced ++ [frame]⟩, none)) := by
  rw [vcStep_triggered_eq threshold cap fdms idx st frame speech htr]
  constructor
  · intro hc
    rw [if_pos hc]
  · intro hc
    rw [if_neg hc]

/-- Concrete instance of C1: capacity 1, threshold 1/2, one unvoiced frame
detriggers and the emitted segment covers both accumulated frames. -/
theorem C1_triggered_step_witness :
    ((⟨true, [], [⟨[1], 0, 0⟩]⟩ : VCState).triggered = true) ∧
    vcStep (1/2) 1 30 3 ⟨true, [], [⟨[1], 0, 0⟩]⟩ ⟨[2], 0, 0⟩ false =
      (⟨false, [], []⟩, some ⟨[1, 2], 30, 90⟩) := by
  refine ⟨rfl, ?_⟩
  have h := (C1_triggered_step (1/2) 1 30 3 ⟨true, [], [⟨[1], 0, 0⟩]⟩ ⟨[2], 0, 0⟩ false rfl).1
    (by with_unfolding_all decide)
  rw [h]
  with_unfolding_all decide

/-- C2: in the NOT_TRIGGERED state the incoming frame is pushed into the ring
buffer before the voiced count is checked; if the number of voiced entries of
the ring buffer then exceeds `threshold * capacity`, the collector triggers,
appends every frame of the ring buffer, in buffer order (so including the
triggering frame itself), to `voiced_frames`, clears the ring buffer and
emits no segment; otherwise it just keeps the grown ring buffer and emits no
segment. -/
theorem C2_not_triggered_step (threshold : ℚ) (cap : ℕ) (fdms : ℚ) (idx : ℕ)
    (st : VCState) (frame : Frame) (speech : Bool) (htr : st.triggered = false) :
    (((((dequePush cap st.ring (frame, speech)).filter (fun p => p.2)).length : ℚ) >
        threshold * (cap : ℚ)) →
      vcStep threshold cap fdms idx st frame speech =
        (⟨true, [], st.voiced ++ (dequePush cap st.ring (frame, speech)).map Prod.fst⟩,
         none)) ∧
    ((¬ ((((dequePush cap st.ring (frame, speech)).filter (fun p => p.2)).length : ℚ) >
        threshold * (cap : ℚ))) →
      vcStep threshold cap fdms idx st frame speech =
        (⟨false, dequePush cap st.ring (frame, speech), st.voiced⟩, none)) := by
  rw [vcStep_not_triggered_eq threshold cap fdms idx st frame speech htr]
  constructor
  · intro hc
    rw [if_pos hc]
  · intro hc
    rw [if_neg hc]

/-- Concrete instance of C2: capacity 1, threshold 1/2, one voiced frame
triggers; the ring buffer is flushed into `voiced_frames` and cleared, and no
segment is emitted. -/
theorem C2_not_triggered_step_witness :
    ((⟨false, [], []⟩ : VCState).triggered = false) ∧
    vcStep (1/2) 1 30 0 ⟨false, [], []⟩ ⟨[5], 0, 0⟩ true =
      (⟨true, [], [⟨[5], 0, 0⟩]⟩, none) := by
  refine ⟨rfl, ?_⟩
  have h := (C2_not_triggered_step (1/2) 1 30 0 ⟨false, [], []⟩ ⟨[5], 0, 0⟩ true rfl).1
    (by with_unfolding_all decide)
  rw [h]
  with_unfolding_all decide

/-! ## Whole-run properties of the collector -/

/-- C6: on the empty frame sequence `vad_collector` emits no segment. -/
theorem C6_empty_input (sample_rate : ℕ)
    (frame_duration_ms padding_duration_ms threshold : ℚ)
    (vad : List ℕ → ℕ → Bool) :
    vad_collector sample_rate frame_duration_ms padding_duration_ms threshold vad [] = [] :=
  rfl

/-- The call trace accumulator of the loop: one record per input frame, in
input order. -/
lemma vcLoop_calls (sample_rate : ℕ) (vad : List ℕ → ℕ → Bool) (threshold : ℚ)
    (cap : ℕ) (fdms : ℚ) :
    ∀ (frames : List Frame) (idx : ℕ) (st : VCState) (segs : List Segment)
      (calls : List (List ℕ × ℕ)),
      (vcLoop sample_rate vad threshold cap fdms frames idx st segs calls).2.2 =
        calls ++ frames.map (fun f => (f.bytes, sample_rate)) := by
  intro frames
  induction frames with
  | nil => intro idx st segs calls; simp [vcLoop]
  | cons f rest ih =>
    intro idx st segs calls
    rw [vcLoop, ih]
    simp

/-- C7: `vad_collector` calls the classifier exactly once per input frame, in
frame order, passing that frame's bytes and the sample rate. -/
theorem C7_classifier_calls (sample_rate : ℕ)
    (frame_duration_ms padding_duration_ms threshold : ℚ)
    (vad : List ℕ → ℕ → Bool) (frames : List Frame) :
    vad_collector_calls sample_rate frame_duration_ms padding_duration_ms threshold
        vad frames =
      frames.map (fun f => (f.bytes, sample_rate)) := by
  unfold vad_collector_calls
  rw [vcLoop_calls]
  simp

/-- Two classifiers that agree on every frame of the input produce identical
loop results. -/
lemma vcLoop_congr_vad (sample_rate : ℕ) (vad1 vad2 : List ℕ → ℕ → Bool)
    (threshold : ℚ) (cap : ℕ) (fdms : ℚ) :
    ∀ (frames : List Frame) (idx : ℕ) (st : VCState) (segs : List Segment)
      (calls : List (List ℕ × ℕ)),
      (∀ f ∈ frames, vad1 f.bytes sample_rate = vad2 f.bytes sample_rate) →
      vcLoop sample_rate vad1 threshold cap fdms frames idx st segs calls =
        vcLoop sample_rate vad2 threshold cap fdms frames idx st segs calls := by
  intro frames
  induction frames with
  | nil => intro idx st segs calls _; rfl
  | cons f rest ih =>
    intro idx st segs calls h
    rw [vcLoop, vcLoop, h f (List.mem_cons_self f rest)]
    exact ih (idx + 1) _ _ _ (fun g hg => h g (List.mem_cons_of_mem f hg))

/-- C8: `vad_collector` is deterministic: runs with the same parameters, the
same frame sequence and the same classifier verdict for each frame produce
identical segment sequences. -/
theorem C8_deterministic (sample_rate : ℕ)
    (frame_duration_ms padding_duration_ms threshold : ℚ)
    (vad1 vad2 : List ℕ → ℕ → Bool) (frames : List Frame)
    (h : ∀ f ∈ frames, vad1 f.bytes sample_rate = vad2 f.bytes sample_rate) :
    vad_collector sample_rate frame_duration_ms padding_duration_ms threshold
        vad1 frames =
      vad_collector sample_rate frame_duration_ms padding_duration_ms threshold
        vad2 frames := by
  simp only [vad_collector]
  rw [vcLoop_congr_vad sample_rate vad1 vad2 threshold
    (ringCap frame_duration_ms padding_duration_ms) frame_duration_ms frames 0
    ⟨false, [], []⟩ [] [] h]

/-- Concrete instance of C8: two syntactically different classifiers that
agree on the single input frame give the same output. -/
theorem C8_deterministic_witness :
    (∀ f ∈ [(⟨[0], 0, 0⟩ : Frame)],
      (fun (_ : List ℕ) (_ : ℕ) => true) f.bytes 7 =
        (fun (b : List ℕ) (_ : ℕ) => decide (b = [0])) f.bytes 7) ∧
    vad_collector 7 30 60 (1/2) (fun _ _ => true) [⟨[0], 0, 0⟩] =
      vad_collector 7 30 60 (1/2) (fun b _ => decide (b = [0])) [⟨[0], 0, 0⟩] :=
  ⟨by decide,
   C8_deterministic 7 30 60 (1/2) (fun _ _ => true) (fun b _ => decide (b = [0]))
     [⟨[0], 0, 0⟩] (by decide)⟩

/-! ## The segment ordering invariant -/

/-- Pushing one element grows the ring buffer by at most one entry. -/
lemma dequePush_length_le {α : Type} (cap : ℕ) (buf : List α) (x : α) :
    (dequePush cap buf x).length ≤ buf.length + 1 := by
  simp only [dequePush, List.length_drop, List.length_append, List.length_singleton]
  omega

/-- If the count of entries satisfying `p` beats a nonnegative bound, the list
is nonempty. -/
lemma ne_nil_of_filter_gt (threshold : ℚ) (cap : ℕ) (l : List (Frame × Bool))
    (p : Frame × Bool → Bool) (ht : 0 ≤ threshold)
    (h : ((l.filter p).length : ℚ) > threshold * (cap : ℚ)) : l ≠ [] := by
  have h0 : (0 : ℚ) ≤ threshold * (cap : ℚ) := mul_nonneg ht (by positivity)
  have h2 : 0 < (l.filter p).length := by exact_mod_cast lt_of_le_of_lt h0 h
  exact List.ne_nil_of_length_pos (lt_of_lt_of_le h2 (List.length_filter_le _ _))

/-- One collector step preserves the invariant `VCInv`. -/
lemma vcInv_step (threshold : ℚ) (cap : ℕ) (fdms : ℚ) (idx : ℕ) (st : VCState)
    (frame : Frame) (speech : Bool) (segs : List Segment)
    (hf : 0 < fdms) (ht : 0 ≤ threshold) (h : VCInv fdms idx st segs) :
    VCInv fdms (idx + 1) (vcStep threshold cap fdms idx st frame speech).1
      (segs ++ ((vcStep threshold cap fdms idx st frame speech).2).toList) := by
  obtain ⟨h1, h2, h3, h4, h5, h6⟩ := h
  cases htr : st.triggered with
  | true =>
    rw [vcStep_triggered_eq threshold cap fdms idx st frame speech htr]
    have hvne : st.voiced ≠ [] := h2 htr
    have hvpos : 0 < st.voiced.length := List.length_pos.mpr hvne
    have hidx : 1 ≤ idx := by
      rcases hseg : segs.getLast? with - | s0
      · have hnil : segs = [] := List.getLast?_eq_none_iff.mp hseg
        have := (h5 hnil).1 htr
        omega
      · obtain ⟨e, -, -, hb, -⟩ := h6 s0 hseg
        have := hb htr
        omega
    by_cases hc : ((((dequePush cap st.ring (frame, speech)).filter
        (fun p => !p.2)).length : ℚ) > threshold * (cap : ℚ))
    · rw [if_pos hc]
      simp only [Option.toList_some]
      have hlen : ((st.voiced ++ [frame]).length : ℤ) = (st.voiced.length : ℤ) + 1 := by
        simp
      have hstartlt : (max 0 ((idx : ℤ) - ((st.voiced ++ [frame]).length : ℤ)) : ℤ) <
          (idx : ℤ) := by
        rw [hlen]
        omega
      refine ⟨fun _ => rfl, fun hcon => absurd hcon (by simp), ?_, ?_, ?_, ?_⟩
      · rw [List.chain'_append]
        refine ⟨h3, List.chain'_singleton _, ?_⟩
        intro x hx y hy
        simp only [List.head?_cons, Option.mem_def, Option.some_inj] at hy
        subst hy
        obtain ⟨e, he, -, hb, -⟩ := h6 x (Option.mem_def.mp hx)
        have hble : st.voiced.length + e + 1 ≤ idx := hb htr
        have hle : (e : ℤ) ≤ (max 0 ((idx : ℤ) - ((st.voiced ++ [frame]).length : ℤ)) : ℤ) := by
          rw [hlen]
          omega
        have hle' : ((e : ℕ) : ℚ) ≤
            (((max 0 ((idx : ℤ) - ((st.voiced ++ [frame]).length : ℤ)) : ℤ)) : ℚ) := by
          exact_mod_cast hle
        rw [he]
        exact mul_le_mul_of_nonneg_left hle' hf.le
      · intro s hs
        rcases List.mem_append.mp hs with hold | hnew
        · exact h4 s hold
        · simp only [List.mem_singleton] at hnew
          subst hnew
          have hlt : (((max 0 ((idx : ℤ) - ((st.voiced ++ [frame]).length : ℤ)) : ℤ)) : ℚ) <
              ((idx : ℕ) : ℚ) := by
            exact_mod_cast hstartlt
          exact mul_lt_mul_of_pos_left hlt hf
      · intro hcon
        exact absurd hcon (by simp)
      · intro s hs
        rw [List.getLast?_concat] at hs
        rw [Option.some_inj] at hs
        subst hs
        exact ⟨idx, rfl, le_refl _, fun hcon => absurd hcon (by simp),
          fun _ => by simp⟩
    · rw [if_neg hc]
      simp only [Option.toList_none, List.append_nil]
      refine ⟨fun hcon => absurd hcon (by simp), fun _ => by simp, h3, h4, ?_, ?_⟩
      · intro hnil
        have := (h5 hnil).1 htr
        refine ⟨fun _ => ?_, fun hcon => absurd hcon (by simp)⟩
        simp only [List.length_append, List.length_singleton]
        omega
      · intro s hs
        obtain ⟨e, he, hei, hb, -⟩ := h6 s hs
        have := hb htr
        refine ⟨e, he, by omega, fun _ => ?_, fun hcon => absurd hcon (by simp)⟩
        simp only [List.length_append, List.length_singleton]
        omega
  | false =>
    rw [vcStep_not_triggered_eq threshold cap fdms idx st frame speech htr]
    have hring := dequePush_length_le cap st.ring (frame, speech)
    by_cases hc : ((((dequePush cap st.ring (frame, speech)).filter
        (fun p => p.2)).length : ℚ) > threshold * (cap : ℚ))
    · rw [if_pos hc]
      simp only [Option.toList_none, List.append_nil]
      have hrne : dequePush cap st.ring (frame, speech) ≠ [] :=
        ne_nil_of_filter_gt threshold cap _ _ ht hc
      have hv : st.voiced = [] := h1 htr
      refine ⟨fun hcon => absurd hcon (by simp), fun _ => ?_, h3, h4, ?_, ?_⟩
      · simp only [ne_eq, List.append_eq_nil, not_and]
        intro _
        simpa using hrne
      · intro hnil
        have hr := (h5 hnil).2 htr
        refine ⟨fun _ => ?_, fun hcon => absurd hcon (by simp)⟩
        simp only [hv, List.nil_append, List.length_map]
        omega
      · intro s hs
        obtain ⟨e, he, hei, -, hb⟩ := h6 s hs
        have hr := hb htr
        refine ⟨e, he, by omega, fun _ => ?_, fun hcon => absurd hcon (by simp)⟩
        simp only [hv, List.nil_append, List.length_map]
        omega
    · rw [if_neg hc]
      simp only [Option.toList_none, List.append_nil]
      refine ⟨fun _ => h1 htr, fun hcon => absurd hcon (by simp), h3, h4, ?_, ?_⟩
      · intro hnil
        have hr := (h5 hnil).2 htr
        exact ⟨fun hcon => absurd hcon (by simp), fun _ => by dsimp only; omega⟩
      · intro s hs
        obtain ⟨e, he, hei, -, hb⟩ := h6 s hs
        have hr := hb htr
        exact ⟨e, he, by omega, fun hcon => absurd hcon (by simp),
          fun _ => by dsimp only; omega⟩

/-- The collector loop preserves the invariant along any frame list. -/
lemma vcInv_loop (sample_rate : ℕ) (vad : List ℕ → ℕ → Bool) (threshold : ℚ)
    (cap : ℕ) (fdms : ℚ) (hf : 0 < fdms) (ht : 0 ≤ threshold) :
    ∀ (frames : List Frame) (idx : ℕ) (st : VCState) (segs : List Segment)
      (calls : List (List ℕ × ℕ)), VCInv fdms idx st segs →
      VCInv fdms (idx + frames.length)
        (vcLoop sample_rate vad threshold cap fdms frames idx st segs calls).1
        (vcLoop sample_rate vad threshold cap fdms frames idx st segs calls).2.1 := by
  intro frames
  induction frames with
  | nil =>
    intro idx st segs calls h
    simpa [vcLoop] using h
  | cons f rest ih =>
    intro idx st segs calls h
    have hstep := vcInv_step threshold cap fdms idx st f (vad f.bytes sample_rate) segs hf ht h
    have hrec := ih (idx + 1)
      (vcStep threshold cap fdms idx st f (vad f.bytes sample_rate)).1
      (segs ++ ((vcStep threshold cap fdms idx st f (vad f.bytes sample_rate)).2).toList)
      (calls ++ [(f.bytes, sample_rate)]) hstep
    have hlen : idx + (f :: rest).length = idx + 1 + rest.length := by
      simp only [List.length_cons]
      omega
    rw [hlen]
    simpa only [vcLoop] using hrec

/-- C10: the segments emitted by `vad_collector` are ordered and
non-overlapping in time: every emitted segment has `start_ms < end_ms`, and
each consecutive pair satisfies `earlier.end_ms ≤ later.start_ms`. -/
theorem C10_segments_ordered (sample_rate : ℕ)
    (frame_duration_ms padding_duration_ms threshold : ℚ)
    (vad : List ℕ → ℕ → Bool) (frames : List Frame)
    (hf : 0 < frame_duration_ms) (ht : 0 ≤ threshold) :
    List.Chain' (fun a b => a.end_ms ≤ b.start_ms)
      (vad_collector sample_rate frame_duration_ms padding_duration_ms threshold
        vad frames) ∧
    ∀ s ∈ vad_collector sample_rate frame_duration_ms padding_duration_ms threshold
        vad frames, s.start_ms < s.end_ms := by
  have hinit : VCInv frame_duration_ms 0 ⟨false, [], []⟩ [] := by
    refine ⟨fun _ => rfl, fun hcon => absurd hcon (by simp), List.chain'_nil,
      by simp, fun _ => ⟨fun _ => by simp, fun _ => by simp⟩, fun s hs => absurd hs (by simp)⟩
  have hrun := vcInv_loop sample_rate vad threshold
    (ringCap frame_duration_ms padding_duration_ms) frame_duration_ms hf ht frames 0
    ⟨false, [], []⟩ [] [] hinit
  rw [Nat.zero_add] at hrun
  obtain ⟨k1, k2, k3, k4, k5, k6⟩ := hrun
  simp only [vad_collector]
  set R := vcLoop sample_rate vad threshold
    (ringCap frame_duration_ms padding_duration_ms) frame_duration_ms frames 0
    ⟨false, [], []⟩ [] [] with hR
  by_cases hemp : R.1.voiced.isEmpty = true
  · rw [if_pos hemp]
    exact ⟨k3, k4⟩
  · rw [if_neg hemp]
    have hvne : R.1.voiced ≠ [] := by
      simpa [List.isEmpty_iff] using hemp
    have htrig : R.1.triggered = true := by
      cases htr2 : R.1.triggered
      · exact absurd (k1 htr2) hvne
      · rfl
    have hvpos : 0 < R.1.voiced.length := List.length_pos.mpr hvne
    have hL : 1 ≤ frames.length := by
      rcases hseg : R.2.1.getLast? with _ | s0
      · have hnil := List.getLast?_eq_none_iff.mp hseg
        have := (k5 hnil).1 htrig
        omega
      · obtain ⟨e, -, -, hb, -⟩ := k6 s0 hseg
        have := hb htrig
        omega
    constructor
    · rw [List.chain'_append]
      refine ⟨k3, List.chain'_singleton _, ?_⟩
      intro x hx y hy
      simp only [List.head?_cons, Option.mem_def, Option.some_inj] at hy
      subst hy
      obtain ⟨e, he, hei, hb, -⟩ := k6 x (Option.mem_def.mp hx)
      have hble := hb htrig
      have hle : ((e : ℕ) : ℤ) ≤ (frames.length : ℤ) - 1 - (R.1.voiced.length : ℤ) := by
        omega
      have hle' : ((e : ℕ) : ℚ) ≤
          (((frames.length : ℤ) - 1 - (R.1.voiced.length : ℤ) : ℤ) : ℚ) := by
        exact_mod_cast hle
      rw [he]
      exact mul_le_mul_of_nonneg_left hle' hf.le
    · intro s hs
      rcases List.mem_append.mp hs with hold | hnew
      · exact k4 s hold
      · simp only [List.mem_singleton] at hnew
        subst hnew
        have hlt : (((frames.length : ℤ) - 1 - (R.1.voiced.length : ℤ) : ℤ) : ℚ) <
            (((frames.length : ℤ) - 1 + 1 : ℤ) : ℚ) := by
          have : ((frames.length : ℤ) - 1 - (R.1.voiced.length : ℤ)) <
              ((frames.length : ℤ) - 1 + 1) := by omega
          exact_mod_cast this
        exact mul_lt_mul_of_pos_left hlt hf

/-- Concrete instance of C10: a run with a mid-stream detrigger and a final
flush produces chained segments. -/
theorem C10_segments_ordered_witness :
    (0 : ℚ) < 30 ∧ (0 : ℚ) ≤ 1/2 ∧
    List.Chain' (fun a b => a.end_ms ≤ b.start_ms)
      (vad_collector 16000 30 60 (1/2) (fun b _ => decide (b.head? = some 1))
        [⟨[1], 0, 0⟩, ⟨[1], 0, 0⟩, ⟨[0], 0, 0⟩, ⟨[0], 0, 0⟩, ⟨[0], 0, 0⟩,
         ⟨[1], 0, 0⟩, ⟨[1], 0, 0⟩, ⟨[0], 0, 0⟩, ⟨[0], 0, 0⟩]) :=
  ⟨by norm_num, by norm_num,
   (C10_segments_ordered 16000 30 60 (1/2) (fun b _ => decide (b.head? = some 1))
     [⟨[1], 0, 0⟩, ⟨[1], 0, 0⟩, ⟨[0], 0, 0⟩, ⟨[0], 0, 0⟩, ⟨[0], 0, 0⟩,
      ⟨[1], 0, 0⟩, ⟨[1], 0, 0⟩, ⟨[0], 0, 0⟩, ⟨[0], 0, 0⟩]
     (by norm_num) (by norm_num)).1⟩

/-- With a nonnegative threshold, one step preserves that a triggered state
has a non-empty `voiced_frames`. -/
lemma vcStep_trig_voiced_ne (threshold : ℚ) (cap : ℕ) (fdms : ℚ) (idx : ℕ)
    (st : VCState) (frame : Frame) (speech : Bool) (ht : 0 ≤ threshold) :
    (vcStep threshold cap fdms idx st frame speech).1.triggered = true →
    (vcStep threshold cap fdms idx st frame speech).1.voiced ≠ [] := by
  cases htr : st.triggered with
  | true =>
    rw [vcStep_triggered_eq threshold cap fdms idx st frame speech htr]
    by_cases hc : ((((dequePush cap st.ring (frame, speech)).filter
        (fun p => !p.2)).length : ℚ) > threshold * (cap : ℚ))
    · rw [if_pos hc]
      intro hcon
      exact absurd hcon (by simp)
    · rw [if_neg hc]
      intro _
      simp
  | false =>
    rw [vcStep_not_triggered_eq threshold cap fdms idx st frame speech htr]
    by_cases hc : ((((dequePush cap st.ring (frame, speech)).filter
        (fun p => p.2)).length : ℚ) > threshold * (cap : ℚ))
    · rw [if_pos hc]
      intro _
      have hrne := ne_nil_of_filter_gt threshold cap _ _ ht hc
      dsimp only
      simp only [ne_eq, List.append_eq_nil, not_and]
      intro _
      simpa using hrne
    · rw [if_neg hc]
      intro hcon
      exact absurd hcon (by simp)

/-- With a nonnegative threshold, along the whole loop a triggered final state
has a non-empty `voiced_frames`. -/
lemma vcLoop_trig_voiced_ne (sample_rate : ℕ) (vad : List ℕ → ℕ → Bool)
    (threshold : ℚ) (cap : ℕ) (fdms : ℚ) (ht : 0 ≤ threshold) :
    ∀ (frames : List Frame) (idx : ℕ) (st : VCState) (segs : List Segment)
      (calls : List (List ℕ × ℕ)),
      (st.triggered = true → st.voiced ≠ []) →
      ((vcLoop sample_rate vad threshold cap fdms frames idx st segs calls).1.triggered =
          true →
        (vcLoop sample_rate vad threshold cap fdms frames idx st segs calls).1.voiced ≠
          []) := by
  intro frames
  induction frames with
  | nil =>
    intro idx st segs calls h
    simpa [vcLoop] using h
  | cons f rest ih =>
    intro idx st segs calls h
    simp only [vcLoop]
    exact ih (idx + 1) _ _ _
      (vcStep_trig_voiced_ne threshold cap fdms idx st f (vad f.bytes sample_rate) ht)

/-- C3: after the input is exhausted, if `voiced_frames` is non-empty then
`vad_collector` emits exactly one final segment whose bytes are the in-order
concatenation of the voiced frame bytes, with
`start_ms = fdms * (last_frame_index - len voiced_frames)` and
`end_ms = fdms * (last_frame_index + 1)` where `last_frame_index` is the
0-based index of the last input frame; in particular a run that ends TRIGGERED
without ever having detriggered yields exactly that one final segment. -/
theorem C3_end_of_stream_flush (sample_rate : ℕ)
    (frame_duration_ms padding_duration_ms threshold : ℚ)
    (vad : List ℕ → ℕ → Bool) (frames : List Frame)
    (st : VCState) (segs : List Segment) (calls : List (List ℕ × ℕ))
    (ht : 0 ≤ threshold)
    (hrun : vcLoop sample_rate vad threshold
        (ringCap frame_duration_ms padding_duration_ms) frame_duration_ms frames 0
        ⟨false, [], []⟩ [] [] = (st, segs, calls)) :
    (st.voiced ≠ [] →
      vad_collector sample_rate frame_duration_ms padding_duration_ms threshold
          vad frames =
        segs ++ [{ audio_bytes := (st.voiced.map Frame.bytes).flatten,
                   start_ms := frame_duration_ms *
                     (((((frames.length : ℤ) - 1) - (st.voiced.length : ℤ)) : ℤ) : ℚ),
                   end_ms := frame_duration_ms *
                     (((((frames.length : ℤ) - 1) + 1) : ℤ) : ℚ) }]) ∧
    (st.triggered = true → segs = [] →
      vad_collector sample_rate frame_duration_ms padding_duration_ms threshold
          vad frames =
        [{ audio_bytes := (st.voiced.map Frame.bytes).flatten,
           start_ms := frame_duration_ms *
             (((((frames.length : ℤ) - 1) - (st.voiced.length : ℤ)) : ℤ) : ℚ),
           end_ms := frame_duration_ms *
             (((((frames.length : ℤ) - 1) + 1) : ℤ) : ℚ) }]) := by
  have hmain : st.voiced ≠ [] →
      vad_collector sample_rate frame_duration_ms padding_duration_ms threshold
          vad frames =
        segs ++ [{ audio_bytes := (st.voiced.map Frame.bytes).flatten,
                   start_ms := frame_duration_ms *
                     (((((frames.length : ℤ) - 1) - (st.voiced.length : ℤ)) : ℤ) : ℚ),
                   end_ms := frame_duration_ms *
                     (((((frames.length : ℤ) - 1) + 1) : ℤ) : ℚ) }] := by
    intro hv
    simp only [vad_collector]
    rw [hrun]
    dsimp only
    rw [if_neg (fun hcon => hv (List.isEmpty_iff.mp hcon))]
  refine ⟨hmain, ?_⟩
  intro htrig hseg0
  have hv : st.voiced ≠ [] := by
    have hne := vcLoop_trig_voiced_ne sample_rate vad threshold
      (ringCap frame_duration_ms padding_duration_ms) frame_duration_ms ht frames 0
      ⟨false, [], []⟩ [] [] (fun hcon => absurd hcon (by simp))
    rw [hrun] at hne
    exact hne htrig
  rw [hmain hv, hseg0, List.nil_append]

/-- Concrete instance of C3: one voiced frame triggers immediately and the
stream ends while TRIGGERED, so the whole output is the single flushed
segment. -/
theorem C3_end_of_stream_flush_witness :
    (0 : ℚ) ≤ 1/2 ∧
    vad_collector 8000 30 30 (1/2) (fun _ _ => true) [⟨[9], 0, 0⟩] =
      [{ audio_bytes := [9], start_ms := -30, end_ms := 30 }] := by
  refine ⟨by norm_num, ?_⟩
  have h := (C3_end_of_stream_flush 8000 30 30 (1/2) (fun _ _ => true) [⟨[9], 0, 0⟩]
      ⟨true, [], [⟨[9], 0, 0⟩]⟩ [] [([9], 8000)] (by norm_num)
      (by with_unfolding_all decide)).2 rfl rfl
  rw [h]
  with_unfolding_all decide

/-- C9: on an all-voiced input the end-of-stream flush emits a segment with
strictly negative `start_ms`: with frame duration 30 ms and eight voiced
frames, the collector triggers at frame 5, never detriggers, and the flushed
segment starts at `-30 = -frame_duration_ms` ms because the flush start
formula is not clamped at 0. -/
theorem C9_negative_flush_start :
    vad_collector 16000 30 300 (1/2) (fun _ _ => true)
      [⟨[0], 0, 0⟩, ⟨[1], 0, 0⟩, ⟨[2], 0, 0⟩, ⟨[3], 0, 0⟩, ⟨[4], 0, 0⟩,
       ⟨[5], 0, 0⟩, ⟨[6], 0, 0⟩, ⟨[7], 0, 0⟩] =
      [{ audio_bytes := [0, 1, 2, 3, 4, 5, 6, 7], start_ms := -30, end_ms := 240 }] ∧
    (-30 : ℚ) = -(30 : ℚ) ∧ (-30 : ℚ) < 0 :=
  ⟨by with_unfolding_all decide, by norm_num, by norm_num⟩
